import Mathlib

/-!
Verification of the bus-balance visualization helpers of the oemof
examples repository: the `shape_legend` label rewriting and layout (two
source variants, in storage_investment_plot.py and variable_chp.py), the
datetime tick computation of simple_dispatch_with_duals.py, and the
partition / stack / slice components described by the specification.

Strings are embedded as `List Char`; Python floats as `ℚ` (the layout and
stacking arithmetic is exact in intent); in-place list mutation is
embedded as explicit state passing: the embedded function returns both
what the callee passes on and the caller-visible final contents of each
argument list.
-/

/-- The quote character (code 39), written via `Char.ofNat`. -/
def squote : Char := Char.ofNat 39

/-- One pass of Python `str.replace(pat, "")`: deletes non-overlapping
occurrences of `pat` from the string, scanning left to right; an empty
pattern leaves the string unchanged (as in Python, where replacing the
empty string by the empty string is the identity). `fuel` bounds the
recursion so the definition is structural; `fuel = s.length` suffices
because every step consumes at least one character. -/
def delOcc (pat : List Char) : Nat → List Char → List Char
  | _, [] => []
  | 0, s => s
  | fuel + 1, c :: rest =>
    if !pat.isEmpty && pat.isPrefixOf (c :: rest) then
      delOcc pat fuel ((c :: rest).drop pat.length)
    else
      c :: delOcc pat fuel rest

/-- Python `s.replace(pat, "")` on char lists: `delOcc` with enough fuel. -/
def pyReplaceDel (s pat : List Char) : List Char := delOcc pat s.length s

/-- The label-rewriting loop body of `shape_legend`
(storage_investment_plot.py lines 50-56 and variable_chp.py lines 63-69,
identical in both): five successive `label.replace(old, '')` calls, with
`old` being the single character `(`, the marker `), flow)`, the bus
label `node`, the comma, and the space, in that order. -/
def shapeLabel (node : List Char) (label : List Char) : List Char :=
  let l1 := pyReplaceDel label ['(']
  let l2 := pyReplaceDel l1 [')', ',', ' ', 'f', 'l', 'o', 'w', ')']
  let l3 := pyReplaceDel l2 node
  let l4 := pyReplaceDel l3 [',']
  pyReplaceDel l4 [' ']

/-- The bus label `electricity` as a char list. -/
def elecChars : List Char :=
  ['e', 'l', 'e', 'c', 't', 'r', 'i', 'c', 'i', 't', 'y']

/-- The concrete legend label of the spec's round-trip example, including
the quote characters it contains. -/
def c3Label : List Char :=
  ['(', '('] ++ [squote] ++ elecChars ++ [squote] ++ [',', ' '] ++
    [squote] ++ ['d', 'e', 'm', 'a', 'n', 'd'] ++ [squote] ++
    [')', ',', ' ', 'f', 'l', 'o', 'w', ')']

/-- The same label with the quote characters left out. -/
def c3LabelNoQuotes : List Char :=
  ['(', '('] ++ elecChars ++ [',', ' '] ++
    ['d', 'e', 'm', 'a', 'n', 'd'] ++
    [')', ',', ' ', 'f', 'l', 'o', 'w', ')']

/-- Position box of a chart axes: the `[x0, y0, width, height]` quadruple
read by `axes.get_position()` and written by `axes.set_position`. -/
structure Box where
  x0 : ℚ
  y0 : ℚ
  width : ℚ
  height : ℚ
deriving DecidableEq

/-- Default of the `plotshare` keyword argument of both `shape_legend`
variants: `kwargs.get('plotshare', 0.9)`. -/
def defaultPlotshare : ℚ := 9 / 10

/-- Observable outcome of one `shape_legend` call: the handles and labels
passed to `axes.legend` (`Option`, because the storage variant can pass
Python `None`), the axes position box after `set_position`, and the final
caller-visible contents of the caller's `handles` and `labels` list
objects (in-place mutation embedded as explicit state). -/
structure ShapeLegendResult (H : Type) where
  legendHandles : Option (List H)
  legendLabels : Option (List (List Char))
  box : Box
  callerHandles : List H
  callerLabels : List (List Char)

/-- Embeds `shape_legend` of storage_investment_plot.py (lines 43-74;
`reverse` defaults to `False` there). Labels are rewritten by
`shapeLabel` into a fresh list; when `reverse` is set the code executes
`handels = handels.reverse()` and `labels = labels.reverse()`:
`list.reverse()` reverses the underlying list in place and returns
`None`, so both locals are rebound to `None` and `axes.legend` receives
`None` for handles and labels. The axes box is always resized to
`[x0, y0, width * plotshare, height]`. The caller's `handles` list is
reversed in place in the `reverse` branch; the caller's `labels` list is
never mutated (the rewrite built a fresh list, and it is that fresh list
the in-place reversal hits). -/
def shape_legend_storage (H : Type) (node : List Char) (reverse : Bool)
    (plotshare : ℚ) (handles : List H) (labels : List (List Char))
    (box : Box) : ShapeLegendResult H :=
  let newLabels := labels.map (shapeLabel node)
  let newBox : Box := ⟨box.x0, box.y0, box.width * plotshare, box.height⟩
  if reverse then
    { legendHandles := none, legendLabels := none, box := newBox,
      callerHandles := handles.reverse, callerLabels := labels }
  else
    { legendHandles := some handles, legendLabels := some newLabels,
      box := newBox, callerHandles := handles, callerLabels := labels }

/-- Embeds `shape_legend` of variable_chp.py (lines 56-87; `reverse`
defaults to `True` there). Identical to the storage variant except that
the `reverse` branch calls `handels.reverse()` and `labels.reverse()` as
statements: the caller's `handles` list and the freshly built rewritten
label list are reversed in place and, still bound to the locals, are
what `axes.legend` receives; the caller's `labels` list stays
unchanged. -/
def shape_legend_chp (H : Type) (node : List Char) (reverse : Bool)
    (plotshare : ℚ) (handles : List H) (labels : List (List Char))
    (box : Box) : ShapeLegendResult H :=
  let newLabels := labels.map (shapeLabel node)
  let newBox : Box := ⟨box.x0, box.y0, box.width * plotshare, box.height⟩
  if reverse then
    { legendHandles := some handles.reverse,
      legendLabels := some newLabels.reverse, box := newBox,
      callerHandles := handles.reverse, callerLabels := labels }
  else
    { legendHandles := some handles, legendLabels := some newLabels,
      box := newBox, callerHandles := handles, callerLabels := labels }

/-- Tick positions set by
`ax.set_xticks(range(0, len(dates), tick_distance))` in
simple_dispatch_with_duals.py (lines 210-217): the positions
`0, step, 2*step, ... < n` of Python `range(0, n, step)`, embedded as the
multiples of `step` below `n` (the two coincide for every positive
`step`, and the claims assume a positive step). -/
def set_xticks (n step : Nat) : List Nat :=
  (List.range n).filter (fun i => i % step == 0)

/-- Tick labels set by `ax.set_xticklabels([item.strftime(date_format)
for item in dates.tolist()[0::tick_distance]])` in
simple_dispatch_with_duals.py: the elements of `dates` whose index is a
multiple of `step` (Python slice `[0::step]`), each formatted by `fmt`
(which stands for `strftime` applied with the fixed format string). -/
def set_xticklabels {α : Type} (dates : List α) (fmt : α → String)
    (step : Nat) : List String :=
  (dates.enum.filter (fun q => q.1 % step == 0)).map (fun q => fmt q.2)

/-- Directed flow key: ordered pair (source label, target label). -/
abbrev FlowKey := String × String

/-- Error cases of the spec's §4.1 BalancePartitioner. -/
inductive PartitionError where
  | emptyBus : PartitionError
  | selfLoop : PartitionError
deriving DecidableEq

/-- Result of a successful partition: the two ordered groups. -/
structure BalanceView where
  inflows : List FlowKey
  outflows : List FlowKey
deriving DecidableEq

/-- Modelled from the spec: §4.1 `partition(table, bus)`; the
implementing code (oemof_visio's `io_plot` / `divide_bus_columns`) is not
part of this repository. Keys whose target is `bus` form `inflows`, keys
whose source is `bus` form `outflows`, each in first-seen table order; a
key with source == target == bus fails with `SelfLoopError`; a table in
which no key references `bus` fails with `EmptyBusError`. -/
def partition (table : List (FlowKey × List ℚ)) (bus : String) :
    Except PartitionError BalanceView :=
  let keys := table.map Prod.fst
  if keys.any (fun k => k.1 == bus && k.2 == bus) then
    Except.error PartitionError.selfLoop
  else
    let infl := keys.filter (fun k => k.2 == bus)
    let outf := keys.filter (fun k => k.1 == bus)
    if infl.isEmpty && outf.isEmpty then
      Except.error PartitionError.emptyBus
    else
      Except.ok ⟨infl, outf⟩

/-- Whether a flow key references the bus on either side. -/
def referencesBus (bus : String) (k : FlowKey) : Bool :=
  k.1 == bus || k.2 == bus

/-- Rendering projection policies of the spec's §4.4. -/
inductive SmoothingPolicy where
  | step : SmoothingPolicy
  | smooth : SmoothingPolicy
deriving DecidableEq

/-- Pointwise sum of two equally long sample sequences. -/
def addSamples (a b : List ℚ) : List ℚ := List.zipWith (· + ·) a b

/-- Modelled from the spec: §4.4 cumulative stack over the ordered inflow
series; each series' rendered top is the previous running sum (its
baseline) plus its own samples. -/
def stackTopsFrom (base : List ℚ) : List (List ℚ) → List (List ℚ)
  | [] => []
  | s :: rest =>
    let top := addSamples base s
    top :: stackTopsFrom top rest

/-- Modelled from the spec: the rendered tops of the stacked inflow
series over a shared time index of length `n` (implementing code,
oemof_visio's `io_plot`, is not part of this repository). At the sample
timestamps both policies render the stacked value itself; STEP holds it
constant until the next timestamp while SMOOTH interpolates linearly in
between, a difference a sample-indexed model does not observe. -/
def composeStackTops (policy : SmoothingPolicy) (n : Nat)
    (ordered_in : List (List ℚ)) : List (List ℚ) :=
  match policy with
  | SmoothingPolicy.step => stackTopsFrom (List.replicate n 0) ordered_in
  | SmoothingPolicy.smooth => stackTopsFrom (List.replicate n 0) ordered_in

/-- Time-indexed flow table: shared strictly increasing timestamp index
plus one sample sequence per flow key (samples aligned positionally with
the index). -/
structure FlowTable where
  index : List ℤ
  series : List (FlowKey × List ℚ)

/-- Error case of the spec's §4.3 TimeWindowSlicer. -/
inductive SliceError where
  | emptyWindow : SliceError
deriving DecidableEq

/-- Modelled from the spec: §4.3 window membership; keeps timestamps in
`[start, end]` inclusive, with an omitted `end` extending to the last
sample; window endpoints outside the available index are clipped
implicitly by the inclusive comparison (no error for that). -/
def inWindow (start : ℤ) (stop : Option ℤ) (t : ℤ) : Bool :=
  decide (start ≤ t) &&
    (match stop with
     | none => true
     | some e => decide (t ≤ e))

/-- Modelled from the spec: §4.3 `slice(table, window)` (implementing
code, oemof_visio's `slice_df`, is not part of this repository). Restricts
the index and every series to the window's timestamps, preserving order;
fails with `EmptyWindowError` when no samples remain after clipping. -/
def sliceTable (T : FlowTable) (start : ℤ) (stop : Option ℤ) :
    Except SliceError FlowTable :=
  let newIndex := T.index.filter (inWindow start stop)
  if newIndex.isEmpty then
    Except.error SliceError.emptyWindow
  else
    Except.ok
      { index := newIndex,
        series := T.series.map (fun p =>
          (p.1,
            ((T.index.zip p.2).filter
              (fun q => inWindow start stop q.1)).map Prod.snd)) }

/-- Deletion never introduces characters: every character of the output
of `delOcc` already occurs in the input. -/
theorem mem_of_mem_delOcc (pat : List Char) (x : Char) :
    ∀ (fuel : Nat) (s : List Char), x ∈ delOcc pat fuel s → x ∈ s := by
  intro fuel
  induction fuel with
  | zero =>
    intro s hx
    cases s with
    | nil => simp [delOcc] at hx
    | cons c rest =>
      simp only [delOcc] at hx
      exact hx
  | succ n ih =>
    intro s hx
    cases s with
    | nil => simp [delOcc] at hx
    | cons c rest =>
      rw [delOcc] at hx
      by_cases hb : (!pat.isEmpty && pat.isPrefixOf (c :: rest)) = true
      · rw [if_pos hb] at hx
        exact List.mem_of_mem_drop (ih _ hx)
      · rw [if_neg hb] at hx
        rcases List.mem_cons.mp hx with h | h
        · exact List.mem_cons.mpr (Or.inl h)
        · exact List.mem_cons.mpr (Or.inr (ih _ h))

/-- Deleting all occurrences of a single-character pattern removes that
character completely, provided the fuel covers the string length. -/
theorem not_mem_delOcc_single (ch : Char) :
    ∀ (fuel : Nat) (s : List Char), s.length ≤ fuel →
      ch ∉ delOcc [ch] fuel s := by
  intro fuel
  induction fuel with
  | zero =>
    intro s hs
    cases s with
    | nil => simp [delOcc]
    | cons c rest => simp at hs
  | succ n ih =>
    intro s hs
    cases s with
    | nil => simp [delOcc]
    | cons c rest =>
      rw [delOcc]
      by_cases hc : ch = c
      · have hb :
            (!(List.isEmpty [ch]) && [ch].isPrefixOf (c :: rest)) = true := by
          simp [List.isPrefixOf, hc]
        rw [if_pos hb]
        have hdrop : (c :: rest).drop (List.length [ch]) = rest := rfl
        rw [hdrop]
        exact ih rest (Nat.le_of_succ_le_succ hs)
      · rw [if_neg (by simp [List.isPrefixOf, hc])]
        intro hmem
        rcases List.mem_cons.mp hmem with h | h
        · exact hc h
        · exact ih rest (Nat.le_of_succ_le_succ hs) h

/-- Character membership carried to `pyReplaceDel`: output characters
occur in the input. -/
theorem mem_of_mem_pyReplaceDel (s pat : List Char) (x : Char)
    (hx : x ∈ pyReplaceDel s pat) : x ∈ s :=
  mem_of_mem_delOcc pat x s.length s hx

/-- Deleting a single character with `pyReplaceDel` removes it
completely. -/
theorem not_mem_pyReplaceDel_single (s : List Char) (ch : Char) :
    ch ∉ pyReplaceDel s [ch] :=
  not_mem_delOcc_single ch s.length s (Nat.le_refl _)

/-- C3 counterexample: on the spec's round-trip label, which contains
quote characters, `shape_legend`'s rewrite does not yield `demand`: no
rewriting step removes the quote characters. -/
theorem c3_shapeLabel_counterexample :
    shapeLabel elecChars c3Label ≠ ['d', 'e', 'm', 'a', 'n', 'd'] := by
  decide

/-- C3 (amended): on the spec's quoted label the rewrite yields `demand`
surrounded by the leftover quote characters, and on the quote-free label
`((electricity, demand), flow)` it yields exactly `demand`; the rewrite
deletes `(` characters, the trailing marker `), flow)`, every occurrence
of the bus label text, commas, and spaces, in that order. -/
theorem c3_shapeLabel_amended :
    shapeLabel elecChars c3Label =
        [squote, squote, squote, 'd', 'e', 'm', 'a', 'n', 'd', squote] ∧
      shapeLabel elecChars c3LabelNoQuotes = ['d', 'e', 'm', 'a', 'n', 'd'] := by
  constructor
  · decide
  · decide

/-- C9: for every input label and every bus label, the label produced by
the `shape_legend` rewriting contains no `(`, no comma and no space: the
`(` characters are deleted by the first step and every later step only
deletes substrings, while commas and spaces are deleted by the final two
steps; a `)` outside the trailing marker can remain in the output, as the
one-character label `)` shows. -/
theorem c9_shapeLabel_strips :
    (∀ node label : List Char,
        '(' ∉ shapeLabel node label ∧ ',' ∉ shapeLabel node label ∧
          ' ' ∉ shapeLabel node label) ∧
      ')' ∈ shapeLabel elecChars [')'] := by
  constructor
  · intro node label
    simp only [shapeLabel]
    refine ⟨fun h => ?_, fun h => ?_, fun h => ?_⟩
    · exact not_mem_pyReplaceDel_single _ '('
        (mem_of_mem_pyReplaceDel _ _ _
          (mem_of_mem_pyReplaceDel _ _ _
            (mem_of_mem_pyReplaceDel _ _ _
              (mem_of_mem_pyReplaceDel _ _ _ h))))
    · exact not_mem_pyReplaceDel_single _ ','
        (mem_of_mem_pyReplaceDel _ _ _ h)
    · exact not_mem_pyReplaceDel_single _ ' ' h
  · decide

/-- C4: evaluation of the storage_investment_plot.py `shape_legend` at a
failing input: with `reverse` set and two handles and one label, the
handles and labels passed to `axes.legend` are both `None` (because
`handels = handels.reverse()` rebinds the local to the `None` that
`list.reverse()` returns), which is not the claimed reversed handle
list. -/
theorem c4_storage_reverse_passes_none :
    (shape_legend_storage Nat elecChars true defaultPlotshare [0, 1]
        [c3Label] ⟨0, 0, 1, 1⟩).legendHandles = none ∧
      (shape_legend_storage Nat elecChars true defaultPlotshare [0, 1]
        [c3Label] ⟨0, 0, 1, 1⟩).legendLabels = none ∧
      (none : Option (List Nat)) ≠ some [1, 0] := by
  refine ⟨rfl, rfl, ?_⟩
  decide

/-- C10: in the variable_chp.py `shape_legend` with `reverse` true (its
default), the caller's handles list object is reversed in place, so the
caller observes its own handles reversed after the call, while the
caller's labels list is left unchanged (the reversal hits the freshly
built rewritten list). -/
theorem c10_chp_mutates_handles_not_labels (H : Type) (node : List Char)
    (plotshare : ℚ) (handles : List H) (labels : List (List Char))
    (box : Box) :
    (shape_legend_chp H node true plotshare handles labels
        box).callerHandles = handles.reverse ∧
      (shape_legend_chp H node true plotshare handles labels
        box).callerLabels = labels :=
  ⟨rfl, rfl⟩

/-- C6: one application of either `shape_legend` variant to an axes whose
position box is `[x0, y0, width, height]` sets the position to
`[x0, y0, width * plotshare, height]`: the width is multiplied by
`plotshare` and the other three fields are unchanged; the `plotshare`
default is 0.9. -/
theorem c6_legend_layout_box (H : Type) (node : List Char)
    (reverse : Bool) (plotshare : ℚ) (handles : List H)
    (labels : List (List Char)) (b : Box) :
    (shape_legend_storage H node reverse plotshare handles labels b).box
        = ⟨b.x0, b.y0, b.width * plotshare, b.height⟩ ∧
      (shape_legend_chp H node reverse plotshare handles labels b).box
        = ⟨b.x0, b.y0, b.width * plotshare, b.height⟩ ∧
      defaultPlotshare = 9 / 10 := by
  cases reverse <;> exact ⟨rfl, rfl, rfl⟩

/-- C7: the width shrink of `shape_legend` is not idempotent: one
application yields width `w * p`, a second application yields
`w * p * p`, and when `w ≠ 0`, `p ≠ 0` and `p ≠ 1` the two results
differ, so two applications compound the shrink. -/
theorem c7_width_shrink_compounds (H : Type) (node : List Char)
    (reverse : Bool) (p : ℚ) (handles : List H)
    (labels : List (List Char)) (b : Box) :
    (shape_legend_storage H node reverse p handles labels b).box.width
        = b.width * p ∧
      (shape_legend_storage H node reverse p handles labels
        (shape_legend_storage H node reverse p handles labels
          b).box).box.width = b.width * p * p ∧
      (b.width ≠ 0 → p ≠ 0 → p ≠ 1 →
        (shape_legend_storage H node reverse p handles labels
            (shape_legend_storage H node reverse p handles labels
              b).box).box.width
          ≠ (shape_legend_storage H node reverse p handles labels
              b).box.width) := by
  have h1 :
      (shape_legend_storage H node reverse p handles labels b).box.width
        = b.width * p := by
    cases reverse <;> rfl
  have h2 :
      (shape_legend_storage H node reverse p handles labels
        (shape_legend_storage H node reverse p handles labels
          b).box).box.width = b.width * p * p := by
    cases reverse <;> rfl
  refine ⟨h1, h2, fun hw hp hp1 heq => ?_⟩
  rw [h1, h2] at heq
  exact hp1 (mul_left_cancel₀ (mul_ne_zero hw hp) (by linarith [heq]))

/-- C7 witness: at the concrete box `[0, 0, 1, 1]` and `plotshare = 1/2`
the second application's width differs from the first's. -/
theorem c7_width_shrink_compounds_witness :
    (1 : ℚ) ≠ 0 ∧ (1 / 2 : ℚ) ≠ 0 ∧ (1 / 2 : ℚ) ≠ 1 ∧
      (shape_legend_storage Nat elecChars false (1 / 2) [] []
          (shape_legend_storage Nat elecChars false (1 / 2) [] []
            ⟨0, 0, 1, 1⟩).box).box.width
        ≠ (shape_legend_storage Nat elecChars false (1 / 2) [] []
            ⟨0, 0, 1, 1⟩).box.width := by
  refine ⟨by norm_num, by norm_num, by norm_num, ?_⟩
  exact (c7_width_shrink_compounds Nat elecChars false (1 / 2) [] []
      ⟨0, 0, 1, 1⟩).2.2 (by norm_num) (by norm_num) (by norm_num)

/-- C1: for every table and bus label such that at least one key
references the bus and (per the spec's §4.1 validity precondition) no key
is a self-loop on the bus, `partition` succeeds, the inflow and outflow
groups are disjoint, and their union is exactly the set of keys in the
table referencing the bus on either side. -/
theorem c1_partition_complete_disjoint
    (table : List (FlowKey × List ℚ)) (bus : String)
    (href : ∃ p ∈ table, referencesBus bus p.1 = true)
    (hloop : ∀ p ∈ table, ¬(p.1.1 = bus ∧ p.1.2 = bus)) :
    ∃ v, partition table bus = Except.ok v ∧
      (∀ k ∈ v.inflows, k.2 = bus) ∧
      (∀ k ∈ v.outflows, k.1 = bus) ∧
      (∀ k, k ∈ v.inflows → k ∉ v.outflows) ∧
      (∀ k, (k ∈ v.inflows ∨ k ∈ v.outflows) ↔
        (k ∈ table.map Prod.fst ∧ referencesBus bus k = true)) := by
  have hkeyloop : ∀ k ∈ table.map Prod.fst, ¬(k.1 = bus ∧ k.2 = bus) := by
    intro k hk
    rcases List.mem_map.mp hk with ⟨p, hp, rfl⟩
    exact hloop p hp
  have hany : ((table.map Prod.fst).any
      (fun k => k.1 == bus && k.2 == bus)) = false := by
    rw [List.any_eq_false]
    intro k hk
    have := hkeyloop k hk
    simp only [Bool.and_eq_true, beq_iff_eq]
    tauto
  obtain ⟨p, hp, hrefp⟩ := href
  have hkey : p.1 ∈ table.map Prod.fst := List.mem_map.mpr ⟨p, hp, rfl⟩
  have hrefp2 : p.1.1 = bus ∨ p.1.2 = bus := by
    simpa [referencesBus] using hrefp
  have hne : (((table.map Prod.fst).filter (fun k => k.2 == bus)).isEmpty
      && ((table.map Prod.fst).filter (fun k => k.1 == bus)).isEmpty)
        = false := by
    rcases hrefp2 with h | h
    · have hmem : p.1 ∈ (table.map Prod.fst).filter
          (fun k => k.1 == bus) :=
        List.mem_filter.mpr ⟨hkey, beq_iff_eq.mpr h⟩
      have hout : ((table.map Prod.fst).filter
          (fun k => k.1 == bus)).isEmpty = false := by
        rcases hxe : (table.map Prod.fst).filter (fun k => k.1 == bus) with
          _ | ⟨a, l⟩
        · rw [hxe] at hmem; simp at hmem
        · rw [hxe]; rfl
      simp [hout]
    · have hmem : p.1 ∈ (table.map Prod.fst).filter
          (fun k => k.2 == bus) :=
        List.mem_filter.mpr ⟨hkey, beq_iff_eq.mpr h⟩
      have hin : ((table.map Prod.fst).filter
          (fun k => k.2 == bus)).isEmpty = false := by
        rcases hxe : (table.map Prod.fst).filter (fun k => k.2 == bus) with
          _ | ⟨a, l⟩
        · rw [hxe] at hmem; simp at hmem
        · rw [hxe]; rfl
      simp [hin]
  refine ⟨⟨(table.map Prod.fst).filter (fun k => k.2 == bus),
      (table.map Prod.fst).filter (fun k => k.1 == bus)⟩, ?_, ?_, ?_, ?_, ?_⟩
  · simp only [partition, hany, Bool.false_eq_true, if_false, hne]
  · intro k hk
    have hk' : k ∈ (table.map Prod.fst).filter (fun x => x.2 == bus) := hk
    exact beq_iff_eq.mp (List.mem_filter.mp hk').2
  · intro k hk
    have hk' : k ∈ (table.map Prod.fst).filter (fun x => x.1 == bus) := hk
    exact beq_iff_eq.mp (List.mem_filter.mp hk').2
  · intro k hkin hkout
    have hkin' : k ∈ (table.map Prod.fst).filter (fun x => x.2 == bus) :=
      hkin
    have hkout' : k ∈ (table.map Prod.fst).filter (fun x => x.1 == bus) :=
      hkout
    exact hkeyloop k (List.mem_filter.mp hkin').1
      ⟨beq_iff_eq.mp (List.mem_filter.mp hkout').2,
        beq_iff_eq.mp (List.mem_filter.mp hkin').2⟩
  · intro k
    show (k ∈ (table.map Prod.fst).filter (fun x => x.2 == bus) ∨
        k ∈ (table.map Prod.fst).filter (fun x => x.1 == bus)) ↔ _
    simp only [List.mem_filter, referencesBus, beq_iff_eq, Bool.or_eq_true]
    tauto

/-- C1 witness: the spec's §8 scenario table (A→bus, B→bus, bus→C)
satisfies the hypotheses, and the partition theorem applies to it. -/
theorem c1_partition_complete_disjoint_witness :
    (∃ p ∈ [((("A", "bus") : FlowKey), ([1, 2, 3] : List ℚ)),
        ((("B", "bus") : FlowKey), ([4, 5, 6] : List ℚ)),
        ((("bus", "C") : FlowKey), ([2, 2, 2] : List ℚ))],
      referencesBus "bus" p.1 = true) ∧
    (∃ v, partition [((("A", "bus") : FlowKey), ([1, 2, 3] : List ℚ)),
        ((("B", "bus") : FlowKey), ([4, 5, 6] : List ℚ)),
        ((("bus", "C") : FlowKey), ([2, 2, 2] : List ℚ))] "bus"
          = Except.ok v ∧
      (∀ k ∈ v.inflows, k.2 = "bus") ∧
      (∀ k ∈ v.outflows, k.1 = "bus") ∧
      (∀ k, k ∈ v.inflows → k ∉ v.outflows) ∧
      (∀ k, (k ∈ v.inflows ∨ k ∈ v.outflows) ↔
        (k ∈ ([((("A", "bus") : FlowKey), ([1, 2, 3] : List ℚ)),
          ((("B", "bus") : FlowKey), ([4, 5, 6] : List ℚ)),
          ((("bus", "C") : FlowKey), ([2, 2, 2] : List ℚ))].map Prod.fst) ∧
          referencesBus "bus" k = true))) := by
  constructor
  · decide
  · exact c1_partition_complete_disjoint _ "bus" (by decide) (by decide)

/-- Pointwise sums read back positionally: within both lengths, the
sample of `addSamples a b` at `t` is the sum of the samples at `t`. -/
theorem addSamples_getD (a b : List ℚ) (t : Nat) (ha : t < a.length)
    (hb : t < b.length) :
    (addSamples a b).getD t 0 = a.getD t 0 + b.getD t 0 := by
  simp only [addSamples, List.getD_eq_getElem?_getD, List.getElem?_zipWith,
    List.getElem?_eq_getElem ha, List.getElem?_eq_getElem hb]
  rfl

/-- Length of a pointwise sum. -/
theorem addSamples_length (a b : List ℚ) :
    (addSamples a b).length = min a.length b.length :=
  List.length_zipWith _ _ _

/-- Sample read of the cumulative stack: the k-th rendered top at
timestamp `t` is the base plus the sum of the first `k + 1` series'
samples at `t`. -/
theorem stackTopsFrom_getD (n : Nat) :
    ∀ (l : List (List ℚ)) (base : List ℚ), base.length = n →
      (∀ s ∈ l, s.length = n) → ∀ k, k < l.length → ∀ t, t < n →
      ((stackTopsFrom base l).getD k []).getD t 0
        = base.getD t 0 + ((l.take (k + 1)).map (fun s => s.getD t 0)).sum := by
  intro l
  induction l with
  | nil =>
    intro base _ _ k hk
    exact absurd hk (by simp)
  | cons s rest ih =>
    intro base hbase hlen k hk t ht
    have hs : s.length = n := hlen s (List.mem_cons_self s rest)
    have htop : (addSamples base s).length = n := by
      rw [addSamples_length, hbase, hs]
      exact min_self n
    have hbt : t < base.length := by rw [hbase]; exact ht
    have hst : t < s.length := by rw [hs]; exact ht
    cases k with
    | zero =>
      simp only [stackTopsFrom, List.getD_cons_zero]
      rw [addSamples_getD base s t hbt hst]
      simp
    | succ k' =>
      simp only [stackTopsFrom, List.getD_cons_succ]
      rw [ih (addSamples base s) htop
        (fun x hx => hlen x (List.mem_cons_of_mem _ hx)) k'
        (by simpa using hk) t ht]
      rw [addSamples_getD base s t hbt hst]
      simp [List.take_succ_cons, add_assoc]

/-- C2: under the STEP policy, the rendered top of the k-th stacked
inflow series at each sample timestamp `t` equals the sum of the inflow
samples of series 0..k at `t`, and the top of the last stacked series at
`t` equals the sum of all inflow samples at `t` (exactly, hence within
the spec's floating-point tolerance). -/
theorem c2_step_stack_exact (n : Nat) (ordered_in : List (List ℚ))
    (hlen : ∀ s ∈ ordered_in, s.length = n) (k t : Nat)
    (hk : k < ordered_in.length) (ht : t < n) :
    ((composeStackTops SmoothingPolicy.step n ordered_in).getD k
          []).getD t 0
        = ((ordered_in.take (k + 1)).map (fun s => s.getD t 0)).sum ∧
      ((composeStackTops SmoothingPolicy.step n ordered_in).getD
          (ordered_in.length - 1) []).getD t 0
        = (ordered_in.map (fun s => s.getD t 0)).sum := by
  have hbase : (List.replicate n (0 : ℚ)).length = n :=
    List.length_replicate n 0
  have hzero : (List.replicate n (0 : ℚ)).getD t 0 = 0 := by
    rw [List.getD_eq_getElem?_getD, List.getElem?_replicate]
    split <;> rfl
  have hpos : 0 < ordered_in.length := Nat.lt_of_le_of_lt (Nat.zero_le k) hk
  constructor
  · have := stackTopsFrom_getD n ordered_in (List.replicate n 0) hbase hlen
      k hk t ht
    simpa [composeStackTops, hzero] using this
  · have hlast : ordered_in.length - 1 < ordered_in.length :=
      Nat.sub_lt hpos Nat.one_pos
    have := stackTopsFrom_getD n ordered_in (List.replicate n 0) hbase hlen
      (ordered_in.length - 1) hlast t ht
    rw [Nat.sub_add_cancel hpos, List.take_length] at this
    simpa [composeStackTops, hzero] using this

/-- C2 witness: the spec's §8 scenario, inflows `[1,2,3]` and `[4,5,6]`
over three timestamps; the theorem applies at `k = 1`, `t = 1`. -/
theorem c2_step_stack_exact_witness :
    (∀ s ∈ [[(1 : ℚ), 2, 3], [4, 5, 6]], s.length = 3) ∧
      (1 : Nat) < [[(1 : ℚ), 2, 3], [4, 5, 6]].length ∧ (1 : Nat) < 3 ∧
      (((composeStackTops SmoothingPolicy.step 3
            [[(1 : ℚ), 2, 3], [4, 5, 6]]).getD 1 []).getD 1 0
          = (([[(1 : ℚ), 2, 3], [4, 5, 6]].take 2).map
              (fun s => s.getD 1 0)).sum ∧
        ((composeStackTops SmoothingPolicy.step 3
            [[(1 : ℚ), 2, 3], [4, 5, 6]]).getD
              ([[(1 : ℚ), 2, 3], [4, 5, 6]].length - 1) []).getD 1 0
          = ([[(1 : ℚ), 2, 3], [4, 5, 6]].map (fun s => s.getD 1 0)).sum) :=
  ⟨by decide, by decide, by decide,
    c2_step_stack_exact 3 [[(1 : ℚ), 2, 3], [4, 5, 6]] (by decide) 1 1
      (by decide) (by decide)⟩

/-- Alignment of the two stride computations: filtering the enumerated
list by a predicate on positions and formatting the elements equals
filtering the positions themselves and formatting the element found at
each position. -/
theorem enumFrom_filter_map_eq {α : Type} (d : α) (fmt : α → String)
    (p : Nat → Bool) :
    ∀ (l : List α) (k : Nat),
      ((List.enumFrom k l).filter (fun q => p q.1)).map (fun q => fmt q.2)
        = ((List.range' k l.length).filter p).map
            (fun i => fmt (l.getD (i - k) d)) := by
  intro l
  induction l with
  | nil =>
    intro k
    simp
  | cons a t ih =>
    intro k
    rw [List.enumFrom_cons, List.length_cons, List.range'_succ]
    by_cases hp : p k = true
    · rw [List.filter_cons_of_pos (by simpa using hp),
        List.filter_cons_of_pos hp, List.map_cons, List.map_cons]
      congr 1
      · simp
      · rw [ih (k + 1)]
        apply List.map_congr_left
        intro i hi
        have hik : k + 1 ≤ i :=
          (List.mem_range'_1.mp (List.mem_of_mem_filter hi)).1
        have h1 : i - k = (i - (k + 1)) + 1 := by omega
        rw [h1, List.getD_cons_succ]
    · rw [List.filter_cons_of_neg (by simpa using hp),
        List.filter_cons_of_neg hp, ih (k + 1)]
      apply List.map_congr_left
      intro i hi
      have hik : k + 1 ≤ i :=
        (List.mem_range'_1.mp (List.mem_of_mem_filter hi)).1
      have h1 : i - k = (i - (k + 1)) + 1 := by omega
      rw [h1, List.getD_cons_succ]

/-- C5: for a non-empty date index and a positive tick step, the computed
tick positions are strictly increasing and lie within
`[0, len(index) - 1]`, and the tick label list equals the tick position
list with each position replaced by the formatted timestamp found at that
index position. -/
theorem c5_ticks_monotone_bounded_labeled {α : Type} (dates : List α)
    (fmt : α → String) (d : α) (step : Nat) (hstep : 0 < step)
    (hne : dates ≠ []) :
    List.Pairwise (· < ·) (set_xticks dates.length step) ∧
      (∀ pos ∈ set_xticks dates.length step, pos ≤ dates.length - 1) ∧
      set_xticklabels dates fmt step
        = (set_xticks dates.length step).map
            (fun i => fmt (dates.getD i d)) := by
  refine ⟨?_, ?_, ?_⟩
  · exact (List.pairwise_lt_range dates.length).filter _
  · intro pos hpos
    have hlt : pos < dates.length :=
      List.mem_range.mp (List.mem_of_mem_filter hpos)
    omega
  · have haux := enumFrom_filter_map_eq d fmt (fun i => i % step == 0)
      dates 0
    rw [← List.range_eq_range'] at haux
    simp only [Nat.sub_zero] at haux
    exact haux

/-- C5 witness: a four-sample index with step 2 satisfies the hypotheses
and the tick theorem applies to it. -/
theorem c5_ticks_monotone_bounded_labeled_witness :
    (0 : Nat) < 2 ∧ ([10, 20, 30, 40] : List Nat) ≠ [] ∧
      (List.Pairwise (· < ·)
          (set_xticks ([10, 20, 30, 40] : List Nat).length 2) ∧
        (∀ pos ∈ set_xticks ([10, 20, 30, 40] : List Nat).length 2,
          pos ≤ ([10, 20, 30, 40] : List Nat).length - 1) ∧
        set_xticklabels ([10, 20, 30, 40] : List Nat) toString 2
          = (set_xticks ([10, 20, 30, 40] : List Nat).length 2).map
              (fun i => toString (([10, 20, 30, 40] : List Nat).getD i 0))) :=
  ⟨by decide, by decide,
    c5_ticks_monotone_bounded_labeled [10, 20, 30, 40] toString 0 2
      (by decide) (by decide)⟩

/-- C8: `slice` fails with `EmptyWindowError` exactly when no samples
remain after clipping the window to the available index; in particular a
window whose start lies after every sample (hence after the last one)
fails rather than returning an empty table. -/
theorem c8_slice_empty_window (T : FlowTable) (start : ℤ)
    (stop : Option ℤ) :
    (sliceTable T start stop = Except.error SliceError.emptyWindow ↔
        T.index.filter (inWindow start stop) = []) ∧
      ((∀ t ∈ T.index, t < start) →
        sliceTable T start stop = Except.error SliceError.emptyWindow) := by
  have hmain : sliceTable T start stop
      = Except.error SliceError.emptyWindow ↔
        T.index.filter (inWindow start stop) = [] := by
    constructor
    · intro h
      rcases hfe : T.index.filter (inWindow start stop) with _ | ⟨a, l⟩
      · rfl
      · simp only [sliceTable, hfe] at h
        simp at h
    · intro h
      simp [sliceTable, h]
  refine ⟨hmain, fun h => hmain.mpr ?_⟩
  rw [List.filter_eq_nil_iff]
  intro t ht
  have hlt : ¬(start ≤ t) := not_le.mpr (h t ht)
  simp [inWindow, hlt]

/-- C8 witness: a three-sample table sliced from start 5, which is after
the last sample, fails with `EmptyWindowError`. -/
theorem c8_slice_empty_window_witness :
    (∀ t ∈ (FlowTable.mk [0, 1, 2] []).index, t < 5) ∧
      sliceTable (FlowTable.mk [0, 1, 2] []) 5 none
        = Except.error SliceError.emptyWindow :=
  ⟨by decide, (c8_slice_empty_window (FlowTable.mk [0, 1, 2] []) 5 none).2
    (by decide)⟩
